import Mathlib

/-!
Verification of the signals bot (src/bot.py): rolling tick buffers, digit
statistics, RSI and MACD oscillators, the four signal evaluators and the
round-robin scheduler loop.  Prices are modelled by rationals, Python round
by round-half-to-even on scaled rationals, and the two module-level deques
of capacity 120 by lists with eviction from the front.
-/

/-- One append to a collections.deque with maxlen cap: the new element goes
to the back and, past capacity, elements fall off the front. -/
def dequeAppend (cap : Nat) (l : List α) (x : α) : List α :=
  (l ++ [x]).drop (l.length + 1 - cap)

/-- The two module-level buffer dictionaries tick_data and price_history,
modelled as total maps from symbol to buffer contents. -/
structure Buffers where
  tick_data : String → List Nat
  price_history : String → List ℚ

/-- MARKETS: the configured (symbol, display name) list. -/
def MARKETS : List (String × String) :=
  [("R_10", "Volatility 10 Index"),
   ("1HZ10V", "Volatility 10 (1s) Index"),
   ("R_25", "Volatility 25 Index"),
   ("1HZ25V", "Volatility 25 (1s) Index")]

/-- BOT_SEQUENCE: the fixed cyclic evaluator order. -/
def BOT_SEQUENCE : List String := ["V1", "V2", "V4", "V5"]

/-- The record returned by digit_stats. -/
structure DigitStats where
  freq : List Nat
  under6 : ℚ
  under7 : ℚ
  even : ℚ
  odd : ℚ
deriving DecidableEq

/-- digit_stats on a digit buffer: None below 60 samples, otherwise counts of
each digit 0..9, a stable frequency-descending ranking (sorted with
reverse=True, which keeps ties in ascending digit order), and four
percentages over the actual buffered count.  The source reads the buffer
from tick_data[symbol]; here the buffer is passed directly. -/
def digit_stats (ticks : List Nat) : Option DigitStats :=
  if ticks.length < 60 then none
  else
    let counts : List Nat := (List.range 10).map (fun i => ticks.count i)
    let total : Nat := ticks.length
    some
      { freq := List.insertionSort
          (fun a b => counts.getD b 0 ≤ counts.getD a 0) (List.range 10)
        under6 := ((counts.take 6).sum : ℚ) / (total : ℚ) * 100
        under7 := ((counts.take 7).sum : ℚ) / (total : ℚ) * 100
        even := ((([0, 2, 4, 6, 8] : List Nat).map
          (fun i => counts.getD i 0)).sum : ℚ) / (total : ℚ) * 100
        odd := ((([1, 3, 5, 7, 9] : List Nat).map
          (fun i => counts.getD i 0)).sum : ℚ) / (total : ℚ) * 100 }

example : (digit_stats (List.replicate 60 3)).isSome = true := by decide
example : digit_stats (List.replicate 59 3) = none := by decide

/-- Python round to the nearest integer (banker rounding: halves go to the
even neighbour), on rationals. -/
def pyRound (q : ℚ) : ℤ :=
  let f : ℤ := q.floor
  if q - f < 1 / 2 then f
  else if 1 / 2 < q - f then f + 1
  else if f % 2 = 0 then f else f + 1

/-- Python round(q, n): round half to even at n decimal places. -/
def pyRoundDec (q : ℚ) (n : Nat) : ℚ :=
  ((pyRound (q * 10 ^ n) : ℚ)) / 10 ^ n

/-- calc_rsi: None below period+1 samples, else the classic RSI over the most
recent period consecutive differences, with 0.0001 substituted for a zero
average loss, rounded to 2 decimals.  The source indexes prices[-i] and
prices[-i-1] for i = 1..period; here j = i-1 and prices[-i] is
prices.getD (n-1-j) 0. -/
def calc_rsi (prices : List ℚ) (period : Nat := 14) : Option ℚ :=
  if prices.length < period + 1 then none
  else
    let n := prices.length
    let diffs := (List.range period).map
      (fun j => prices.getD (n - 1 - j) 0 - prices.getD (n - 2 - j) 0)
    let gains := diffs.map (fun d => max d 0)
    let losses := diffs.map (fun d => |min d 0|)
    let avg_gain := gains.sum / (period : ℚ)
    let al := losses.sum / (period : ℚ)
    let avg_loss := if al = 0 then 1 / 10000 else al
    let rs := avg_gain / avg_loss
    some (pyRoundDec (100 - 100 / (1 + rs)) 2)

/-- The inner ema helper of calc_macd: seed e = data[0], then
e = v*k + e*(1-k) over the remaining values, with k = 2/(p+1).  On an empty
list the source would raise on data[0]; calc_macd only passes nonempty
windows, and we return 0 there. -/
def ema (data : List ℚ) (p : Nat) : ℚ :=
  let k : ℚ := 2 / ((p : ℚ) + 1)
  match data with
  | [] => 0
  | e0 :: rest => rest.foldl (fun e v => v * k + e * (1 - k)) e0

/-- calc_macd: None below 35 samples, else
round(ema(last26,12) - ema(last26,26) - ema(last9,9), 5).  Python
prices[-26:] is the suffix of length 26. -/
def calc_macd (prices : List ℚ) : Option ℚ :=
  if prices.length < 35 then none
  else
    let last26 := prices.drop (prices.length - 26)
    let last9 := prices.drop (prices.length - 9)
    some (pyRoundDec (ema last26 12 - ema last26 26 - ema last9 9) 5)

/-- Modelled from the spec wording of section 4.2: an exponential moving
average as a recurrence with smoothing factor k, seeded with the first value
of the averaging window. -/
def ema_spec (k : ℚ) (seed : ℚ) (vs : List ℚ) : ℚ :=
  vs.foldl (fun e v => v * k + e * (1 - k)) seed

/-- Modelled from the spec wording of C4: EMA(12) and EMA(26) over the last
26 samples, EMA(9) over the last 9 samples as the signal line, MACD line
minus signal line rounded to 5 decimals, undefined below 35 samples.  Each
EMA uses k = 2/(period+1) and is seeded with the first value of its window. -/
def macd_spec (prices : List ℚ) : Option ℚ :=
  if prices.length < 35 then none
  else
    let w26 := prices.drop (prices.length - 26)
    let w9 := prices.drop (prices.length - 9)
    let ema12 := ema_spec (2 / 13) w26.headI w26.tail
    let ema26 := ema_spec (2 / 27) w26.headI w26.tail
    let signalLine := ema_spec (2 / 10) w9.headI w9.tail
    some (pyRoundDec (ema12 - ema26 - signalLine) 5)

/-- Modelled from the spec wording of C3: average gain and average loss over
the most recent 14 consecutive differences of the price sequence, epsilon
substitution for a zero average loss, RSI = 100 - 100/(1+rs) rounded to 2
decimals, undefined below 15 samples.  The window w is the suffix of length
15 and the k-th consecutive difference is w[k+1] - w[k]. -/
def rsi_spec (prices : List ℚ) : Option ℚ :=
  if prices.length < 15 then none
  else
    let w := prices.drop (prices.length - 15)
    let diffs := (List.range 14).map (fun k => w.getD (k + 1) 0 - w.getD k 0)
    let avg_gain := (diffs.map (fun d => max d 0)).sum / (14 : ℚ)
    let al := (diffs.map (fun d => |min d 0|)).sum / (14 : ℚ)
    let avg_loss := if al = 0 then 1 / 10000 else al
    some (pyRoundDec (100 - 100 / (1 + avg_gain / avg_loss)) 2)

set_option maxRecDepth 40000 in
lemma demo_rsi : calc_rsi [0, 1, 2, 3, 4, 5, 6, 7, 8, 9, 10, 11, 12, 13, 14] 14
    = some (9999 / 100) := by
  simp only [calc_rsi, pyRoundDec, pyRound, List.range_succ, List.range_zero,
    List.map_append, List.map_cons, List.map_nil, List.sum_append,
    List.sum_cons, List.sum_nil, List.length_cons, List.length_nil,
    List.getD, List.getElem?_cons, List.nil_append, List.cons_append]
  norm_num [Rat.floor_def', List.getElem?_cons_succ]
example : calc_rsi [1, 2, 3] 14 = none := by decide

/-- The dictionary payload of a signal.  Each evaluator fills only some of
the keys; absent keys are modelled by none. -/
structure SigData where
  trade : String
  entry : Option Nat
  prob : Option ℚ
  rsi : Option ℚ
  macd : Option ℚ
  momentum : Option ℚ
deriving DecidableEq

/-- An evaluator: from the shared buffers and a (symbol, name) pair to an
optional (payload, market name) result. -/
def Evaluator : Type :=
  Buffers → String → String → Option (SigData × String)

/-- signal_v1: fires when under6 is at least 60, trade UNDER 6, entry is the
top-ranked digit, probability the under6 percentage. -/
def signal_v1 : Evaluator := fun st sym name =>
  match digit_stats (st.tick_data sym) with
  | some s =>
    if 60 ≤ s.under6 then
      some ({ trade := "UNDER 6", entry := some s.freq.headI,
              prob := some s.under6, rsi := none, macd := none,
              momentum := none }, name)
    else none
  | none => none

/-- signal_v2: fires when under7 is at least 60, trade UNDER 7. -/
def signal_v2 : Evaluator := fun st sym name =>
  match digit_stats (st.tick_data sym) with
  | some s =>
    if 60 ≤ s.under7 then
      some ({ trade := "UNDER 7", entry := some s.freq.headI,
              prob := some s.under7, rsi := none, macd := none,
              momentum := none }, name)
    else none
  | none => none

/-- signal_v4: fires when RSI and MACD are defined and truthy (nonzero, as
Python tests them for truth before comparing), RSI above 60 and MACD
positive; trade RISE, momentum is RSI rounded to 1 decimal. -/
def signal_v4 : Evaluator := fun st sym name =>
  let prices := st.price_history sym
  match calc_rsi prices 14, calc_macd prices with
  | some rsi, some macd =>
    if rsi ≠ 0 ∧ macd ≠ 0 ∧ 60 < rsi ∧ 0 < macd then
      some ({ trade := "RISE", entry := none, prob := none, rsi := some rsi,
              macd := some macd, momentum := some (pyRoundDec rsi 1) }, name)
    else none
  | _, _ => none

/-- signal_v5: fires when the even percentage is at least 60, trade EVEN. -/
def signal_v5 : Evaluator := fun st sym name =>
  match digit_stats (st.tick_data sym) with
  | some s =>
    if 60 ≤ s.even then
      some ({ trade := "EVEN", entry := none, prob := some s.even,
              rsi := none, macd := none, momentum := none }, name)
    else none
  | none => none

/-- The dispatch dictionary of line 219 mapping a bot id to its evaluator. -/
def BOT_FNS : List (String × Evaluator) :=
  [("V1", signal_v1), ("V2", signal_v2), ("V4", signal_v4), ("V5", signal_v5)]

/-- Line 220: the first market, in configured order, for which fn fires;
remaining markets are not consulted. -/
def runEval (st : Buffers) (fn : Evaluator) : Option (SigData × String) :=
  MARKETS.findSome? (fun m => fn st m.1 m.2)

/-- One iteration of the main scheduler loop, restricted to its pure core:
from the current bot index, the bot BOT_SEQUENCE[bot_index] is selected,
the index advances by one position modulo the sequence length before any
evaluation, and only the selected evaluator is run across the markets. -/
def loopIter (st : Buffers) (i : Nat) : Nat × Option (SigData × String) :=
  ((i + 1) % BOT_SEQUENCE.length,
   match BOT_FNS.lookup (BOT_SEQUENCE.getD i "") with
   | some fn => runEval st fn
   | none => none)

/-- The bot index after running the loop once per element of states,
starting from index i; each element of states is the buffer contents
observed by that cycle, so the list encodes arbitrary per-cycle data and
hence arbitrary evaluation outcomes. -/
def schedIndex : Nat → List Buffers → Nat
  | i, [] => i
  | i, st :: rest => schedIndex (loopIter st i).1 rest

/-- The successive current-bot selections of the loop over states. -/
def schedCurrents : Nat → List Buffers → List String
  | _, [] => []
  | i, st :: rest => BOT_SEQUENCE.getD i "" :: schedCurrents (loopIter st i).1 rest

/-- A parsed JSON value, as produced by json.loads. -/
inductive Json where
  | obj (fields : List (String × Json))
  | arr (elems : List Json)
  | str (s : String)
  | num (q : ℚ)
  | bool (b : Bool)
  | null

/-- Dictionary field access (json.loads keeps the last duplicate of a key;
well-formed messages have distinct keys, where this is first-match). -/
def lookupField (k : String) : List (String × Json) → Option Json
  | [] => none
  | (k1, v) :: fs => if k1 = k then some v else lookupField k fs

/-- Digit characters to the number they spell, most significant first. -/
def digitsToNat (ds : List Char) : Nat :=
  ds.foldl (fun n c => n * 10 + (c.toNat - 48)) 0

/-- Python float() on a plain decimal string: optional minus sign, digits,
optionally a dot and further digits.  Other accepted Python spellings
(scientific notation, inf, nan) do not occur in quote payloads and map to
none here. -/
def floatOfString? (s : String) : Option ℚ :=
  let cs := s.toList
  let body := if cs.headI = '-' then cs.tail else cs
  let sign : ℚ := if cs.headI = '-' then -1 else 1
  let intPart := body.takeWhile (fun c => c.isDigit)
  let rest := body.dropWhile (fun c => c.isDigit)
  if intPart = [] then none
  else
    match rest with
    | [] => some (sign * (digitsToNat intPart : ℚ))
    | '.' :: frac =>
      if frac.all (fun c => c.isDigit) then
        some (sign * ((digitsToNat intPart : ℚ)
          + (digitsToNat frac : ℚ) / 10 ^ frac.length))
      else none
    | _ => none

/-- Python float() applied to a JSON value: numbers pass through, booleans
become 0 or 1, numeric strings are parsed; anything else raises. -/
def jsonToFloat : Json → Option ℚ
  | .num q => some q
  | .bool b => some (if b then 1 else 0)
  | .str s => floatOfString? s
  | _ => none

/-- The per-message body of collect_ticks (lines 194-199), with raising
paths modelled as none: if the parsed message d has no "tick" key it is
skipped and the state returned unchanged; otherwise the quote is converted
with float() and the symbol looked up, and the two per-symbol buffers get
one append each.  A TypeError or KeyError on the way (non-dict message,
non-dict tick, missing quote or symbol, non-string symbol, unknown symbol)
is none, caught by the bare except of the surrounding loop.  The digit
appended is last_digit(p) of the float p; its value is abstracted by
digitOf. -/
def processMsg (digitOf : ℚ → Nat) (d : Json) (st : Buffers) :
    Option Buffers :=
  match d with
  | .obj fields =>
    match lookupField "tick" fields with
    | none => some st
    | some t =>
      match t with
      | .obj tf =>
        match lookupField "quote" tf with
        | none => none
        | some qv =>
          match jsonToFloat qv with
          | none => none
          | some p =>
            match lookupField "symbol" tf with
            | some (.str s) =>
              if MARKETS.any (fun m => m.1 = s) then
                some { tick_data := fun x =>
                         if x = s then
                           dequeAppend 120 (st.tick_data s) (digitOf p)
                         else st.tick_data x
                       price_history := fun x =>
                         if x = s then
                           dequeAppend 120 (st.price_history s) p
                         else st.price_history x }
              else none
            | _ => none
      | _ => none
  | _ => none

/-- A message as collect_ticks observes it: an exception anywhere in the
body is swallowed by the bare except (the loop then reconnects after a
pause), so the buffers carry over unchanged. -/
def handleMsg (digitOf : ℚ → Nat) (d : Json) (st : Buffers) : Buffers :=
  (processMsg digitOf d st).getD st

/-- A message of the shape {tick: {symbol: ..., quote: ...}} whose quote
float() accepts: exactly the messages on which the body reaches the two
appends, provided the symbol is also a known market. -/
def isTickShaped (d : Json) : Bool :=
  match d with
  | .obj fields =>
    match lookupField "tick" fields with
    | some (.obj tf) =>
      (match lookupField "quote" tf with
       | some qv => (jsonToFloat qv).isSome
       | none => false)
      && (match lookupField "symbol" tf with
          | some (.str _) => true
          | _ => false)
    | _ => false
  | _ => false

/-- The buffers at process start: one empty digit and price buffer per
market symbol (a total map here). -/
def initBuffers : Buffers :=
  { tick_data := fun _ => [], price_history := fun _ => [] }

/-- str.split on a dot, on the character list of the string: Python
s.split(".") always returns at least one (possibly empty) piece. -/
def splitOnDot : List Char → List (List Char)
  | [] => [[]]
  | c :: cs =>
    let r := splitOnDot cs
    if c = '.' then [] :: r else (c :: r.headI) :: r.tail

/-- last_digit (line 83) on the decimal rendering of the price:
int(str(price).split(".")[-1][-1]).  Indexing an empty last piece or
applying int to a non-digit character raises, modelled as none. -/
def last_digit (s : List Char) : Option Nat :=
  let piece := (splitOnDot s).getLastD []
  match piece.getLast? with
  | none => none
  | some c => if c.isDigit then some (c.toNat - 48) else none

/-- Modelled from the spec and the repr algorithm of CPython floats, which
is outside this repository: the shapes str() produces for a finite float.
Either a fixed-point rendering sign/integer digits/dot/fraction digits
(always with at least one digit on each side of the dot, so integral values
render like 100.0), or scientific notation with a single leading digit, an
optional fractional part, and a signed exponent of at least two digits
(like 1e-05 or 1.5e+16). -/
inductive PyFloatRepr where
  | decimal (neg : Bool) (intPart : List Nat) (fracPart : List Nat)
  | sci (neg : Bool) (lead : Nat) (fracPart : List Nat) (eneg : Bool)
      (expDigits : List Nat)

/-- Digits to characters. -/
def renderDigits (ds : List Nat) : List Char :=
  ds.map (fun d => Char.ofNat (48 + d))

/-- The character list str(price) yields for each shape. -/
def renderFloat : PyFloatRepr → List Char
  | .decimal neg intPart fracPart =>
    (if neg then ['-'] else []) ++ renderDigits intPart
      ++ '.' :: renderDigits fracPart
  | .sci neg lead fracPart eneg expDigits =>
    (if neg then ['-'] else []) ++ [Char.ofNat (48 + lead)]
      ++ (if fracPart = [] then [] else '.' :: renderDigits fracPart)
      ++ 'e' :: (if eneg then '-' else '+') :: renderDigits expDigits

/-- Well-formedness of a rendered float: nonempty digit blocks of decimal
digits. -/
def WFFloatRepr : PyFloatRepr → Prop
  | .decimal _ intPart fracPart =>
    intPart ≠ [] ∧ fracPart ≠ [] ∧ (∀ d ∈ intPart, d < 10)
      ∧ ∀ d ∈ fracPart, d < 10
  | .sci _ lead fracPart _ expDigits =>
    lead < 10 ∧ expDigits ≠ [] ∧ (∀ d ∈ fracPart, d < 10)
      ∧ ∀ d ∈ expDigits, d < 10

/-- The digit last_digit extracts from each shape: the last fractional
digit for fixed-point renderings, the last digit of the exponent for
scientific ones. -/
def lastDigitVal : PyFloatRepr → Nat
  | .decimal _ _ fracPart => fracPart.getLastD 0
  | .sci _ _ _ _ expDigits => expDigits.getLastD 0

example : last_digit ("100.0".toList) = some 0 := by decide
example : last_digit ("1e-05".toList) = some 5 := by decide
example : last_digit ("1234.5678".toList) = some 8 := by decide

lemma length_dequeAppend (cap : Nat) (l : List α) (x : α) :
    (dequeAppend cap l x).length = l.length + 1 - (l.length + 1 - cap) := by
  simp [dequeAppend]

lemma foldl_dequeAppend (cap : Nat) :
    ∀ (xs l : List α), l.length ≤ cap →
      xs.foldl (dequeAppend cap) l
        = (l ++ xs).drop (l.length + xs.length - cap)
  | [], l, hl => by
    simp [Nat.sub_eq_zero_of_le hl]
  | x :: xs, l, hl => by
    have hle : (dequeAppend cap l x).length ≤ cap := by
      rw [length_dequeAppend]; omega
    rw [List.foldl_cons, foldl_dequeAppend cap xs _ hle]
    have hd : l.length + 1 - cap ≤ (l ++ [x]).length := by
      simp
    have key : dequeAppend cap l x ++ xs
        = (l ++ x :: xs).drop (l.length + 1 - cap) := by
      unfold dequeAppend
      rw [← List.drop_append_of_le_length hd, List.append_assoc,
        List.singleton_append]
    rw [key, List.drop_drop]
    congr 1
    rw [length_dequeAppend]
    simp only [List.length_cons]
    omega

/-- C8: starting from the empty buffer, any sequence of appends through the
deque leaves at most 120 elements, and the contents are exactly the suffix
of the appended sequence: the oldest elements are evicted first and the
survivors keep insertion order.  Stated for a digit buffer and a price
buffer. -/
theorem c8_buffer_capacity_fifo :
    ∀ (ds : List Nat) (ps : List ℚ),
      ((ds.foldl (dequeAppend 120) []).length ≤ 120
        ∧ ds.foldl (dequeAppend 120) [] = ds.drop (ds.length - 120))
      ∧ ((ps.foldl (dequeAppend 120) []).length ≤ 120
        ∧ ps.foldl (dequeAppend 120) [] = ps.drop (ps.length - 120)) := by
  intro ds ps
  have h1 := foldl_dequeAppend 120 ds ([] : List Nat) (by simp)
  have h2 := foldl_dequeAppend 120 ps ([] : List ℚ) (by simp)
  simp only [List.nil_append, List.length_nil, Nat.zero_add] at h1 h2
  refine ⟨⟨?_, h1⟩, ⟨?_, h2⟩⟩
  · rw [h1, List.length_drop]; omega
  · rw [h2, List.length_drop]; omega

lemma loopIter_fst (st : Buffers) (i : Nat) :
    (loopIter st i).1 = (i + 1) % 4 := rfl

lemma schedIndex_eq :
    ∀ (l : List Buffers) (i : Nat), i < 4 →
      schedIndex i l = (i + l.length) % 4
  | [], i, hi => by
    simp [schedIndex, Nat.mod_eq_of_lt hi]
  | st :: rest, i, hi => by
    rw [schedIndex, loopIter_fst,
      schedIndex_eq rest ((i + 1) % 4) (Nat.mod_lt _ (by omega))]
    simp only [List.length_cons]
    omega

lemma schedCurrents_eq :
    ∀ (l : List Buffers) (i : Nat), i < 4 →
      schedCurrents i l
        = (List.range l.length).map
            (fun t => BOT_SEQUENCE.getD ((i + t) % 4) "")
  | [], i, hi => by simp [schedCurrents]
  | st :: rest, i, hi => by
    rw [schedCurrents, loopIter_fst,
      schedCurrents_eq rest ((i + 1) % 4) (Nat.mod_lt _ (by omega))]
    simp only [List.length_cons, List.range_succ_eq_map, List.map_cons,
      List.map_map]
    congr 1
    · rw [Nat.add_zero, Nat.mod_eq_of_lt hi]
    · exact List.map_congr_left (fun t _ => by
        simp only [Function.comp_apply, Nat.succ_eq_add_one]
        congr 1
        omega)

/-- C1: over any run of the scheduler loop, whatever buffer contents (and
hence whatever evaluation results) each cycle observes, the bot index
advances by exactly one position modulo the four-element sequence per
cycle, and the selected evaluators are BOT_SEQUENCE cyclically: V1, V2, V4,
V5, V1, ... -/
theorem c1_scheduler_round_robin :
    ∀ (states : List Buffers),
      (∀ (st : Buffers) (i : Nat),
        (loopIter st i).1 = (i + 1) % BOT_SEQUENCE.length)
      ∧ schedIndex 0 states = states.length % 4
      ∧ schedCurrents 0 states
          = (List.range states.length).map
              (fun t => BOT_SEQUENCE.getD (t % 4) "") := by
  intro states
  refine ⟨fun st i => rfl, ?_, ?_⟩
  · rw [schedIndex_eq states 0 (by omega), Nat.zero_add]
  · rw [schedCurrents_eq states 0 (by omega)]
    exact List.map_congr_left (fun t _ => by rw [Nat.zero_add])

lemma ratFloor_eq_floor (q : ℚ) : q.floor = ⌊q⌋ := by
  rw [Rat.floor_def', Rat.floor_def]

lemma pyRound_nonneg (q : ℚ) (hq : 0 ≤ q) : 0 ≤ pyRound q := by
  have hf : 0 ≤ ⌊q⌋ := Int.floor_nonneg.mpr hq
  simp only [pyRound, ratFloor_eq_floor]
  split_ifs <;> omega

lemma pyRound_le_floor_add_one (q : ℚ) : pyRound q ≤ ⌊q⌋ + 1 := by
  simp only [pyRound, ratFloor_eq_floor]
  split_ifs <;> omega

lemma getD_drop (l : List ℚ) (m k : Nat) :
    (l.drop m).getD k 0 = l.getD (m + k) 0 := by
  simp [List.getD_eq_getElem?_getD, List.getElem?_drop]

lemma sum_map_range_reflect (f : Nat → ℚ) :
    ∀ n, ((List.range n).map (fun j => f (n - 1 - j))).sum
      = ((List.range n).map f).sum
  | 0 => rfl
  | n + 1 => by
    have hL : (List.range (n + 1)).map (fun j => f (n + 1 - 1 - j))
        = f n :: (List.range n).map (fun j => f (n - 1 - j)) := by
      rw [List.range_succ_eq_map, List.map_cons, List.map_map]
      congr 1
      exact List.map_congr_left (fun j hj => by
        simp only [Function.comp_apply]
        congr 1
        omega)
    have hR : (List.range (n + 1)).map f = ((List.range n).map f) ++ [f n] := by
      rw [List.range_succ, List.map_append, List.map_cons, List.map_nil]
    rw [hL, hR, List.sum_cons, List.sum_append, sum_map_range_reflect f n]
    simp [add_comm]

lemma rsi_sums_eq (prices : List ℚ) (h : 15 ≤ prices.length) (g : ℚ → ℚ) :
    (((List.range 14).map (fun j =>
        prices.getD (prices.length - 1 - j) 0
          - prices.getD (prices.length - 2 - j) 0)).map g).sum
      = (((List.range 14).map (fun k =>
          (prices.drop (prices.length - 15)).getD (k + 1) 0
            - (prices.drop (prices.length - 15)).getD k 0)).map g).sum := by
  rw [List.map_map, List.map_map,
    ← sum_map_range_reflect (g ∘ fun k =>
      (prices.drop (prices.length - 15)).getD (k + 1) 0
        - (prices.drop (prices.length - 15)).getD k 0) 14]
  congr 1
  refine List.map_congr_left (fun j hj => ?_)
  rw [List.mem_range] at hj
  simp only [Function.comp_apply, getD_drop]
  have e1 : prices.length - 15 + (14 - 1 - j + 1) = prices.length - 1 - j := by
    omega
  have e2 : prices.length - 15 + (14 - 1 - j) = prices.length - 2 - j := by
    omega
  rw [e1, e2]

lemma rsi_round_bounds (ag al : ℚ) (hag : 0 ≤ ag) (hal : 0 < al) :
    0 ≤ pyRoundDec (100 - 100 / (1 + ag / al)) 2
      ∧ pyRoundDec (100 - 100 / (1 + ag / al)) 2 ≤ 100 := by
  have hrs : 0 ≤ ag / al := div_nonneg hag hal.le
  have h1 : (0 : ℚ) < 1 + ag / al := by linarith
  have hx0 : 0 ≤ 100 - 100 / (1 + ag / al) := by
    have hd : 100 / (1 + ag / al) ≤ 100 := by
      rw [div_le_iff₀ h1]
      nlinarith
    linarith
  have hx100 : 100 - 100 / (1 + ag / al) < 100 := by
    have hd : 0 < 100 / (1 + ag / al) := div_pos (by norm_num) h1
    linarith
  unfold pyRoundDec
  constructor
  · apply div_nonneg _ (by norm_num)
    have h := pyRound_nonneg ((100 - 100 / (1 + ag / al)) * 10 ^ 2)
      (mul_nonneg hx0 (by norm_num))
    exact_mod_cast h
  · have hfl : ⌊(100 - 100 / (1 + ag / al)) * 10 ^ 2⌋ < 10000 := by
      apply Int.floor_lt.mpr
      push_cast
      nlinarith
    have hple : pyRound ((100 - 100 / (1 + ag / al)) * 10 ^ 2) ≤ 10000 :=
      le_trans (pyRound_le_floor_add_one _) (by omega)
    have hcast : ((pyRound ((100 - 100 / (1 + ag / al)) * 10 ^ 2) : ℤ) : ℚ)
        ≤ 10000 := by exact_mod_cast hple
    rw [div_le_iff₀ (by positivity : (0 : ℚ) < 10 ^ 2)]
    linarith

/-- C3: calc_rsi agrees with the spec description (most recent 14
consecutive differences, gains and magnitudes of losses, epsilon
substitution for a zero average loss, rounding to 2 decimals), is undefined
exactly below 15 samples, and every defined value lies in [0, 100]. -/
theorem c3_rsi_spec_and_bounds (prices : List ℚ) :
    calc_rsi prices 14 = rsi_spec prices
      ∧ (calc_rsi prices 14 = none ↔ prices.length < 15)
      ∧ ∀ r, calc_rsi prices 14 = some r → 0 ≤ r ∧ r ≤ 100 := by
  by_cases hlen : prices.length < 15
  · refine ⟨?_, ?_, ?_⟩
    · simp [calc_rsi, rsi_spec, hlen]
    · simp [calc_rsi, hlen]
    · intro r hr
      simp [calc_rsi, hlen] at hr
  · have h15 : 15 ≤ prices.length := by omega
    have hg := rsi_sums_eq prices h15 (fun d => max d 0)
    have hl := rsi_sums_eq prices h15 (fun d => |min d 0|)
    refine ⟨?_, ?_, ?_⟩
    · simp only [calc_rsi, rsi_spec, if_neg hlen, Nat.cast_ofNat]
      rw [hg, hl]
    · simp [calc_rsi, hlen]
    · intro r hr
      simp only [calc_rsi, if_neg hlen, Nat.cast_ofNat,
        Option.some.injEq] at hr
      subst hr
      apply rsi_round_bounds
      · apply div_nonneg
        · apply List.sum_nonneg
          intro x hx
          obtain ⟨d, hd, rfl⟩ := List.mem_map.mp hx
          exact le_max_right _ 0
        · norm_num
      · have hA : (0 : ℚ) ≤ (List.map (fun d => |min d 0|)
            (List.map (fun j => prices.getD (prices.length - 1 - j) 0
              - prices.getD (prices.length - 2 - j) 0)
              (List.range 14))).sum / ((14 : ℕ) : ℚ) := by
          apply div_nonneg
          · apply List.sum_nonneg
            intro x hx
            obtain ⟨d, hd, rfl⟩ := List.mem_map.mp hx
            exact abs_nonneg _
          · norm_num
        split_ifs with h0
        · norm_num
        · exact lt_of_le_of_ne hA (Ne.symm h0)

lemma ema_eq_ema_spec (data : List ℚ) (p : Nat) :
    ema data p = ema_spec (2 / ((p : ℚ) + 1)) data.headI data.tail := by
  cases data
  · show (0 : ℚ) = ema_spec _ default []
    rw [show (default : ℚ) = 0 from rfl]
    rfl
  · rfl

/-- C4: calc_macd is undefined exactly below 35 samples, and otherwise
agrees with the spec description: EMA(12) and EMA(26) over the last 26
samples, EMA(9) over the last 9 as the signal line, each EMA seeded with
the first value of its window, and the difference rounded to 5 decimals. -/
theorem c4_macd_spec (prices : List ℚ) :
    calc_macd prices = macd_spec prices
      ∧ (calc_macd prices = none ↔ prices.length < 35) := by
  constructor
  · simp only [calc_macd, macd_spec]
    split
    · rfl
    · rw [ema_eq_ema_spec, ema_eq_ema_spec, ema_eq_ema_spec]
      norm_num
  · unfold calc_macd
    split <;> simp_all

lemma countP_lt_succ (l : List Nat) (k : Nat) :
    l.countP (fun d => decide (d < k + 1))
      = l.countP (fun d => decide (d < k)) + l.count k := by
  induction l with
  | nil => rfl
  | cons d t ih =>
    rw [List.countP_cons, List.countP_cons, List.count_cons, ih]
    split_ifs <;> simp_all <;> omega

lemma sum_map_range_count (l : List Nat) :
    ∀ k, ((List.range k).map (fun i => l.count i)).sum
      = l.countP (fun d => decide (d < k))
  | 0 => by simp
  | k + 1 => by
    rw [List.range_succ, List.map_append, List.sum_append,
      sum_map_range_count l k, countP_lt_succ]
    simp

lemma even_counts (l : List Nat) (h : ∀ d ∈ l, d ≤ 9) :
    l.count 0 + l.count 2 + l.count 4 + l.count 6 + l.count 8
      = l.countP (fun d => decide (d % 2 = 0)) := by
  induction l with
  | nil => rfl
  | cons d t ih =>
    have hd : d ≤ 9 := h d (List.mem_cons_self d t)
    have ht : ∀ x ∈ t, x ≤ 9 := fun x hx => h x (List.mem_cons_of_mem d hx)
    rw [List.count_cons, List.count_cons, List.count_cons, List.count_cons,
      List.count_cons, List.countP_cons, ← ih ht]
    interval_cases d <;> simp <;> omega

lemma odd_counts (l : List Nat) (h : ∀ d ∈ l, d ≤ 9) :
    l.count 1 + l.count 3 + l.count 5 + l.count 7 + l.count 9
      = l.countP (fun d => decide (d % 2 = 1)) := by
  induction l with
  | nil => rfl
  | cons d t ih =>
    have hd : d ≤ 9 := h d (List.mem_cons_self d t)
    have ht : ∀ x ∈ t, x ≤ 9 := fun x hx => h x (List.mem_cons_of_mem d hx)
    rw [List.count_cons, List.count_cons, List.count_cons, List.count_cons,
      List.count_cons, List.countP_cons, ← ih ht]
    interval_cases d <;> simp <;> omega

lemma counts_getD (ticks : List Nat) (i : Nat) (hi : i < 10) :
    ((List.range 10).map (fun j => ticks.count j)).getD i 0 = ticks.count i := by
  simp [List.getD_eq_getElem?_getD, List.getElem?_map, List.getElem?_range hi]

lemma counts_take_sum (ticks : List Nat) (k : Nat) (hk : k ≤ 10) :
    (((List.range 10).map (fun i => ticks.count i)).take k).sum
      = ticks.countP (fun d => decide (d < k)) := by
  rw [← List.map_take, List.take_range, show k ⊓ 10 = k by omega,
    sum_map_range_count]

/-- C2: digit_stats is undefined exactly below 60 samples; with n >= 60
buffered digits, under6 and under7 are the counts of digits below 6 and
below 7 divided by the actual buffered count n (not 120) times 100, and,
for buffers of decimal digits, even and odd are likewise the percentages
of even and odd digits over n. -/
theorem c2_digit_stats_percentages (ticks : List Nat) :
    (digit_stats ticks = none ↔ ticks.length < 60)
      ∧ ∀ s, digit_stats ticks = some s →
          (s.under6 = (ticks.countP (fun d => decide (d < 6)) : ℚ)
              / (ticks.length : ℚ) * 100
            ∧ s.under7 = (ticks.countP (fun d => decide (d < 7)) : ℚ)
              / (ticks.length : ℚ) * 100)
          ∧ ((∀ d ∈ ticks, d ≤ 9) →
            s.even = (ticks.countP (fun d => decide (d % 2 = 0)) : ℚ)
                / (ticks.length : ℚ) * 100
              ∧ s.odd = (ticks.countP (fun d => decide (d % 2 = 1)) : ℚ)
                / (ticks.length : ℚ) * 100) := by
  constructor
  · by_cases hlen : ticks.length < 60 <;> simp [digit_stats, hlen]
  · intro s hs
    by_cases hlen : ticks.length < 60
    · simp [digit_stats, hlen] at hs
    · simp only [digit_stats, if_neg hlen, Option.some.injEq] at hs
      subst hs
      have hg0 := counts_getD ticks 0 (by omega)
      have hg1 := counts_getD ticks 1 (by omega)
      have hg2 := counts_getD ticks 2 (by omega)
      have hg3 := counts_getD ticks 3 (by omega)
      have hg4 := counts_getD ticks 4 (by omega)
      have hg5 := counts_getD ticks 5 (by omega)
      have hg6 := counts_getD ticks 6 (by omega)
      have hg7 := counts_getD ticks 7 (by omega)
      have hg8 := counts_getD ticks 8 (by omega)
      have hg9 := counts_getD ticks 9 (by omega)
      refine ⟨⟨?_, ?_⟩, ?_⟩
      · simp only [counts_take_sum ticks 6 (by omega)]
      · simp only [counts_take_sum ticks 7 (by omega)]
      · intro hdig
        constructor
        · simp only [List.map_cons, List.map_nil, List.sum_cons,
            List.sum_nil, hg0, hg2, hg4, hg6, hg8]
          rw [show ticks.count 0 + (ticks.count 2 + (ticks.count 4
              + (ticks.count 6 + (ticks.count 8 + 0))))
            = ticks.count 0 + ticks.count 2 + ticks.count 4
              + ticks.count 6 + ticks.count 8 by omega]
          rw [even_counts ticks hdig]
        · simp only [List.map_cons, List.map_nil, List.sum_cons,
            List.sum_nil, hg1, hg3, hg5, hg7, hg9]
          rw [show ticks.count 1 + (ticks.count 3 + (ticks.count 5
              + (ticks.count 7 + (ticks.count 9 + 0))))
            = ticks.count 1 + ticks.count 3 + ticks.count 5
              + ticks.count 7 + ticks.count 9 by omega]
          rw [odd_counts ticks hdig]

/-- C7: for any digit buffer with at least 60 samples, the statistics
satisfy under6 <= under7 and even + odd = 100 exactly (rational
arithmetic). -/
theorem c7_stats_consistency (ticks : List Nat) (s : DigitStats)
    (hs : digit_stats ticks = some s) (hdig : ∀ d ∈ ticks, d ≤ 9) :
    s.under6 ≤ s.under7 ∧ s.even + s.odd = 100 := by
  have hc2 := (c2_digit_stats_percentages ticks).2 s hs
  obtain ⟨⟨h6, h7⟩, heo⟩ := hc2
  obtain ⟨he, ho⟩ := heo hdig
  have hlen : ¬ ticks.length < 60 := by
    intro h
    rw [((c2_digit_stats_percentages ticks).1).mpr h] at hs
    exact Option.noConfusion hs
  have hT0 : (0 : ℚ) < (ticks.length : ℚ) := by
    have : 0 < ticks.length := by omega
    exact_mod_cast this
  constructor
  · rw [h6, h7]
    have hcc : ticks.countP (fun d => decide (d < 6))
        ≤ ticks.countP (fun d => decide (d < 7)) := by
      apply List.countP_mono_left
      intro x _ hx
      simp only [decide_eq_true_eq] at hx ⊢
      omega
    gcongr
  · rw [he, ho]
    have hEO : ticks.countP (fun d => decide (d % 2 = 0))
        + ticks.countP (fun d => decide (d % 2 = 1)) = ticks.length := by
      have hl := List.length_eq_countP_add_countP
        (fun d => decide (d % 2 = 0)) ticks
      have hcongr : ticks.countP (fun a => decide (¬ decide (a % 2 = 0) = true))
          = ticks.countP (fun d => decide (d % 2 = 1)) := by
        apply List.countP_congr
        intro x _
        simp only [decide_eq_true_eq]
        omega
      omega
    have hT : (ticks.length : ℚ) ≠ 0 := ne_of_gt hT0
    field_simp
    push_cast [← hEO]
    ring

lemma headI_insertionSort_least_max (key : Nat → Nat) :
    ∀ (l : List Nat), l.Pairwise (· < ·) → l ≠ [] →
      (List.insertionSort (fun a b => key b ≤ key a) l).headI ∈ l
        ∧ (∀ y ∈ l,
          key y ≤ key (List.insertionSort (fun a b => key b ≤ key a) l).headI)
        ∧ ∀ y ∈ l,
          key y = key (List.insertionSort (fun a b => key b ≤ key a) l).headI
            → (List.insertionSort (fun a b => key b ≤ key a) l).headI ≤ y
  | [], _, hne => absurd rfl hne
  | x :: l, hp, _ => by
    by_cases hl : l = []
    · subst hl
      refine ⟨by simp [List.insertionSort, List.orderedInsert], ?_, ?_⟩
      · intro y hy
        rw [List.mem_singleton] at hy
        subst hy
        simp [List.insertionSort, List.orderedInsert]
      · intro y hy _
        rw [List.mem_singleton] at hy
        subst hy
        simp [List.insertionSort, List.orderedInsert]
    · have hp' : l.Pairwise (· < ·) := List.Pairwise.of_cons hp
      have hxlt : ∀ y ∈ l, x < y := (List.pairwise_cons.mp hp).1
      obtain ⟨hmem, hmax, hleast⟩ :=
        headI_insertionSort_least_max key l hp' hl
      have hne2 : List.insertionSort (fun a b => key b ≤ key a) l ≠ [] := by
        intro h0
        have hperm := List.perm_insertionSort (fun a b => key b ≤ key a) l
        rw [h0] at hperm
        exact hl hperm.symm.eq_nil
      cases hcase : List.insertionSort (fun a b => key b ≤ key a) l with
      | nil => exact absurd hcase hne2
      | cons h1 t =>
        rw [hcase] at hmem hmax hleast
        have hhead : (List.insertionSort (fun a b => key b ≤ key a)
            (x :: l)).headI = if key h1 ≤ key x then x else h1 := by
          show (List.orderedInsert (fun a b => key b ≤ key a) x
            (List.insertionSort (fun a b => key b ≤ key a) l)).headI = _
          rw [hcase]
          by_cases hc : key h1 ≤ key x
          · simp [List.orderedInsert, hc]
          · simp [List.orderedInsert, hc]
        rw [hhead]
        by_cases hc : key h1 ≤ key x
        · rw [if_pos hc]
          refine ⟨List.mem_cons_self x l, ?_, ?_⟩
          · intro y hy
            rcases List.mem_cons.mp hy with rfl | hy2
            · exact le_refl _
            · exact le_trans (hmax y hy2) hc
          · intro y hy _
            rcases List.mem_cons.mp hy with rfl | hy2
            · exact le_refl _
            · exact le_of_lt (hxlt y hy2)
        · rw [if_neg hc]
          have hxh : key x < key h1 := Nat.lt_of_not_le hc
          refine ⟨List.mem_cons_of_mem x hmem, ?_, ?_⟩
          · intro y hy
            rcases List.mem_cons.mp hy with rfl | hy2
            · exact le_of_lt hxh
            · exact hmax y hy2
          · intro y hy heq
            rcases List.mem_cons.mp hy with rfl | hy2
            · exact absurd heq (ne_of_lt hxh)
            · exact hleast y hy2 heq

/-- C5: in the frequency ranking of digit_stats, the first-ranked digit
attains the maximal occurrence count, and among all digits attaining that
count it is the smallest: ties at the top are broken by ascending digit
value. -/
theorem c5_freq_head_least_max (ticks : List Nat) (s : DigitStats)
    (hs : digit_stats ticks = some s) :
    s.freq.headI < 10
      ∧ (∀ d, d < 10 → ticks.count d ≤ ticks.count s.freq.headI)
      ∧ ∀ d, d < 10 → ticks.count d = ticks.count s.freq.headI
          → s.freq.headI ≤ d := by
  by_cases hlen : ticks.length < 60
  · simp [digit_stats, hlen] at hs
  · simp only [digit_stats, if_neg hlen, Option.some.injEq] at hs
    subst hs
    obtain ⟨hmem, hmax, hleast⟩ := headI_insertionSort_least_max
      (fun i => ((List.range 10).map (fun j => ticks.count j)).getD i 0)
      (List.range 10) (List.pairwise_lt_range 10) (by simp)
    set h := (List.insertionSort
      (fun a b => ((List.range 10).map (fun j => ticks.count j)).getD b 0
        ≤ ((List.range 10).map (fun j => ticks.count j)).getD a 0)
      (List.range 10)).headI with hh
    have hlt : h < 10 := List.mem_range.mp hmem
    refine ⟨hlt, ?_, ?_⟩
    · intro d hd
      have := hmax d (List.mem_range.mpr hd)
      rwa [counts_getD ticks d hd, counts_getD ticks h hlt] at this
    · intro d hd heq
      apply hleast d (List.mem_range.mpr hd)
      rwa [counts_getD ticks d hd, counts_getD ticks h hlt]

lemma findSome?_none_iff (f : α → Option β) :
    ∀ (l : List α), l.findSome? f = none ↔ ∀ x ∈ l, f x = none
  | [] => by simp
  | x :: xs => by
    rw [List.findSome?_cons]
    cases hfx : f x with
    | some b => simp [hfx]
    | none => simp [hfx, findSome?_none_iff f xs]

lemma findSome?_some_first (f : α → Option β) :
    ∀ (l : List α) (b : β), l.findSome? f = some b →
      ∃ i : Fin l.length, f (l.get i) = some b
        ∧ ∀ j : Fin l.length, j.val < i.val → f (l.get j) = none
  | [], b, h => by simp [List.findSome?] at h
  | x :: xs, b, h => by
    rw [List.findSome?_cons] at h
    cases hfx : f x with
    | some c =>
      rw [hfx] at h
      refine ⟨⟨0, by simp⟩, ?_, ?_⟩
      · rw [show (x :: xs).get ⟨0, by simp⟩ = x from rfl, hfx]
        exact h
      · intro j hj
        simp at hj
    | none =>
      rw [hfx] at h
      obtain ⟨i, hi, hprev⟩ := findSome?_some_first f xs b h
      refine ⟨⟨i.val + 1, by simp⟩, ?_, ?_⟩
      · rw [show (x :: xs).get ⟨i.val + 1, by simp⟩ = xs.get i by
          simp [List.get_cons_succ]]
        exact hi
      · intro j hj
        rcases j with ⟨jv, hjlt⟩
        cases jv with
        | zero =>
          rw [show (x :: xs).get ⟨0, hjlt⟩ = x from rfl]
          exact hfx
        | succ k =>
          have hk : k < xs.length := by
            simp at hjlt
            omega
          have hki : k < i.val := by
            simp at hj
            omega
          have := hprev ⟨k, hk⟩ hki
          rw [show (x :: xs).get ⟨k + 1, hjlt⟩ = xs.get ⟨k, hk⟩ from rfl]
          exact this

/-- C6: in each cycle only the evaluator selected by the scheduler runs
(line 219-220); it scans the markets in configured order, the result is
the value at the first market for which it fires, all earlier markets
returned no signal, and when it fires nowhere the cycle yields no signal
no matter what the other three evaluators would have said. -/
theorem c6_single_evaluator_first_market (st : Buffers) (current : String)
    (fn : Evaluator) (hfn : BOT_FNS.lookup current = some fn) :
    (∀ i : Nat, BOT_SEQUENCE.getD i "" = current →
        (loopIter st i).2 = runEval st fn)
      ∧ (runEval st fn = none ↔ ∀ m ∈ MARKETS, fn st m.1 m.2 = none)
      ∧ ∀ sig, runEval st fn = some sig →
          ∃ i : Fin MARKETS.length,
            fn st (MARKETS.get i).1 (MARKETS.get i).2 = some sig
              ∧ ∀ j : Fin MARKETS.length, j.val < i.val →
                fn st (MARKETS.get j).1 (MARKETS.get j).2 = none := by
  refine ⟨?_, ?_, ?_⟩
  · intro i hi
    have hsnd : (loopIter st i).2
        = match BOT_FNS.lookup (BOT_SEQUENCE.getD i "") with
          | some f => runEval st f
          | none => none := rfl
    rw [hsnd, hi, hfn]
  · unfold runEval
    exact findSome?_none_iff _ MARKETS
  · intro sig hsig
    exact findSome?_some_first _ MARKETS sig hsig

/-- C9: a parsed message that is not a well-shaped tick
({tick: {symbol, quote}} with a convertible quote) never changes any
buffer and never lets an exception escape the receive loop: the handler
returns the state unchanged.  Moreover a dict without a tick key is
skipped without even an internal exception (the body returns the state
as a non-raising no-op). -/
theorem c9_nontick_leaves_buffers (digitOf : ℚ → Nat) (d : Json)
    (st : Buffers) :
    (isTickShaped d = false → handleMsg digitOf d st = st)
      ∧ ∀ fields, d = Json.obj fields → lookupField "tick" fields = none →
          processMsg digitOf d st = some st := by
  constructor
  · intro hshape
    cases d with
    | obj fields =>
      cases htick : lookupField "tick" fields with
      | none => simp [handleMsg, processMsg, htick]
      | some t =>
        cases t with
        | obj tf =>
          cases hq : lookupField "quote" tf with
          | none => simp [handleMsg, processMsg, htick, hq]
          | some qv =>
            cases hjf : jsonToFloat qv with
            | none => simp [handleMsg, processMsg, htick, hq, hjf]
            | some p =>
              cases hsym : lookupField "symbol" tf with
              | none => simp [handleMsg, processMsg, htick, hq, hjf, hsym]
              | some sv =>
                cases sv with
                | str s =>
                  exfalso
                  simp [isTickShaped, htick, hq, hjf, hsym] at hshape
                | obj f2 =>
                  simp [handleMsg, processMsg, htick, hq, hjf, hsym]
                | arr es =>
                  simp [handleMsg, processMsg, htick, hq, hjf, hsym]
                | num q2 =>
                  simp [handleMsg, processMsg, htick, hq, hjf, hsym]
                | bool b2 =>
                  simp [handleMsg, processMsg, htick, hq, hjf, hsym]
                | null =>
                  simp [handleMsg, processMsg, htick, hq, hjf, hsym]
        | arr es => simp [handleMsg, processMsg, htick]
        | str s2 => simp [handleMsg, processMsg, htick]
        | num q2 => simp [handleMsg, processMsg, htick]
        | bool b2 => simp [handleMsg, processMsg, htick]
        | null => simp [handleMsg, processMsg, htick]
    | arr es => simp [handleMsg, processMsg]
    | str s2 => simp [handleMsg, processMsg]
    | num q2 => simp [handleMsg, processMsg]
    | bool b2 => simp [handleMsg, processMsg]
    | null => simp [handleMsg, processMsg]
  · intro fields hd htick
    subst hd
    simp [processMsg, htick]

lemma splitOnDot_ne_nil : ∀ (s : List Char), splitOnDot s ≠ []
  | [] => by simp [splitOnDot]
  | c :: cs => by
    simp only [splitOnDot]
    split <;> simp

lemma splitOnDot_no_dot :
    ∀ (s : List Char), (∀ c ∈ s, c ≠ '.') → splitOnDot s = [s]
  | [], _ => rfl
  | c :: cs, h => by
    have hc : c ≠ '.' := h c (List.mem_cons_self c cs)
    have ih := splitOnDot_no_dot cs (fun x hx => h x (List.mem_cons_of_mem c hx))
    simp only [splitOnDot, if_neg hc, ih]
    rfl

lemma splitOnDot_length_two :
    ∀ (s : List Char), '.' ∈ s → 2 ≤ (splitOnDot s).length
  | c :: cs, hmem => by
    by_cases hc : c = '.'
    · subst hc
      rw [show splitOnDot ('.' :: cs) = [] :: splitOnDot cs by
        simp [splitOnDot]]
      simp only [List.length_cons]
      have h1 : 1 ≤ (splitOnDot cs).length :=
        List.length_pos.mpr (splitOnDot_ne_nil cs)
      omega
    · have hmem2 : '.' ∈ cs := by
        rcases List.mem_cons.mp hmem with h | h
        · exact absurd h.symm hc
        · exact h
      have h2 := splitOnDot_length_two cs hmem2
      simp only [splitOnDot, if_neg hc, List.length_cons, List.length_tail]
      omega

lemma splitOnDot_getLastD_append :
    ∀ (X Y : List Char), (∀ c ∈ Y, c ≠ '.') →
      (splitOnDot (X ++ '.' :: Y)).getLastD [] = Y
  | [], Y, hY => by
    show (splitOnDot ('.' :: Y)).getLastD [] = Y
    rw [show splitOnDot ('.' :: Y) = [] :: splitOnDot Y by simp [splitOnDot],
      splitOnDot_no_dot Y hY, List.getLastD_cons, List.getLastD_cons,
      List.getLastD_nil]
  | c :: X, Y, hY => by
    by_cases hc : c = '.'
    · subst hc
      show (splitOnDot ('.' :: (X ++ '.' :: Y))).getLastD [] = Y
      rw [show splitOnDot ('.' :: (X ++ '.' :: Y))
          = [] :: splitOnDot (X ++ '.' :: Y) by simp [splitOnDot],
        List.getLastD_cons]
      exact splitOnDot_getLastD_append X Y hY
    · show (splitOnDot (c :: (X ++ '.' :: Y))).getLastD [] = Y
      simp only [splitOnDot, if_neg hc]
      have hmem : '.' ∈ X ++ '.' :: Y :=
        List.mem_append_right X (List.mem_cons_self _ _)
      have hlen := splitOnDot_length_two (X ++ '.' :: Y) hmem
      have hIH := splitOnDot_getLastD_append X Y hY
      cases hR : splitOnDot (X ++ '.' :: Y) with
      | nil => rw [hR] at hlen; simp at hlen
      | cons a R2 =>
        cases R2 with
        | nil => rw [hR] at hlen; simp at hlen
        | cons b rest =>
          rw [hR] at hIH
          rw [List.getLastD_cons, List.getLastD_cons] at hIH
          show ((c :: a) :: b :: rest).getLastD [] = Y
          rw [List.getLastD_cons, List.getLastD_cons]
          exact hIH

lemma digitChar_ne_dot (d : Nat) (hd : d < 10) : Char.ofNat (48 + d) ≠ '.' := by
  interval_cases d <;> decide

lemma digitChar_isDigit (d : Nat) (hd : d < 10) :
    (Char.ofNat (48 + d)).isDigit = true := by
  interval_cases d <;> decide

lemma digitChar_val (d : Nat) (hd : d < 10) :
    (Char.ofNat (48 + d)).toNat - 48 = d := by
  interval_cases d <;> decide

lemma renderDigits_no_dot (F : List Nat) (h : ∀ d ∈ F, d < 10) :
    ∀ c ∈ renderDigits F, c ≠ '.' := by
  intro c hc
  obtain ⟨d, hd, rfl⟩ := List.mem_map.mp hc
  exact digitChar_ne_dot d (h d hd)

lemma renderDigits_getLast? :
    ∀ (F : List Nat), F ≠ [] →
      (renderDigits F).getLast? = some (Char.ofNat (48 + F.getLastD 0))
  | [d], _ => rfl
  | d :: e :: rest, _ => by
    have ih := renderDigits_getLast? (e :: rest) (by simp)
    show (Char.ofNat (48 + d) :: Char.ofNat (48 + e)
      :: renderDigits rest).getLast? = _
    rw [List.getLast?_cons_cons]
    rw [show (Char.ofNat (48 + e) :: renderDigits rest)
      = renderDigits (e :: rest) from rfl, ih]
    simp only [List.getLastD_cons]

lemma getLastD_mem : ∀ (l : List Nat), l ≠ [] → l.getLastD 0 ∈ l
  | [a], _ => by simp
  | a :: b :: t, _ => by
    have ih := getLastD_mem (b :: t) (by simp)
    simp only [List.getLastD_cons] at ih ⊢
    exact List.mem_cons_of_mem a ih

lemma last_digit_of_piece (s piece : List Char) (v : Nat) (hv : v < 10)
    (hpiece : (splitOnDot s).getLastD [] = piece)
    (hlast : piece.getLast? = some (Char.ofNat (48 + v))) :
    last_digit s = some v := by
  simp only [last_digit]
  rw [hpiece, hlast]
  simp [digitChar_isDigit v hv, digitChar_val v hv]

/-- C10: on every well-formed rendering of a finite float, last_digit
returns a digit in [0, 9] without raising: the last fractional digit for
fixed-point renderings (so integral prices rendered like 100.0 give 0) and
the last digit of the rendered exponent for scientific notation. -/
theorem c10_last_digit_total (r : PyFloatRepr) (hwf : WFFloatRepr r) :
    last_digit (renderFloat r) = some (lastDigitVal r)
      ∧ lastDigitVal r ≤ 9 := by
  cases r with
  | decimal neg I F =>
    obtain ⟨hI, hF, hId, hFd⟩ := hwf
    have hv : F.getLastD 0 < 10 := hFd _ (getLastD_mem F hF)
    have hpiece : (splitOnDot (renderFloat (.decimal neg I F))).getLastD []
        = renderDigits F := by
      simp only [renderFloat]
      exact splitOnDot_getLastD_append _ _ (renderDigits_no_dot F hFd)
    refine ⟨last_digit_of_piece _ _ _ hv hpiece ?_, by
      show F.getLastD 0 ≤ 9
      omega⟩
    have hrd : renderDigits F ≠ [] := by simp [renderDigits, hF]
    exact renderDigits_getLast? F hF
  | sci neg lead F eneg E =>
    obtain ⟨hlead, hE, hFd, hEd⟩ := hwf
    have hv : E.getLastD 0 < 10 := hEd _ (getLastD_mem E hE)
    have hrdE : renderDigits E ≠ [] := by simp [renderDigits, hE]
    by_cases hF : F = []
    · subst hF
      have hform : renderFloat (.sci neg lead [] eneg E)
          = ((if neg then ['-'] else []) ++ [Char.ofNat (48 + lead)]
              ++ ['e', if eneg then '-' else '+']) ++ renderDigits E := by
        simp [renderFloat, List.append_assoc]
      have hnodot : ∀ c ∈ renderFloat (PyFloatRepr.sci neg lead [] eneg E),
          c ≠ '.' := by
        rw [hform]
        intro c hc
        rcases List.mem_append.mp hc with h1 | h2
        · rcases List.mem_append.mp h1 with h3 | h4
          · rcases List.mem_append.mp h3 with h5 | h6
            · cases neg
              · simp at h5
              · simp at h5
                subst h5
                decide
            · simp at h6
              subst h6
              exact digitChar_ne_dot lead hlead
          · simp at h4
            rcases h4 with rfl | rfl
            · decide
            · cases eneg <;> decide
        · obtain ⟨d, hd, rfl⟩ := List.mem_map.mp h2
          exact digitChar_ne_dot d (hEd d hd)
      have hpiece : (splitOnDot
          (renderFloat (.sci neg lead [] eneg E))).getLastD []
          = renderFloat (.sci neg lead [] eneg E) := by
        rw [splitOnDot_no_dot _ hnodot, List.getLastD_cons, List.getLastD_nil]
      refine ⟨last_digit_of_piece _ _ _ hv hpiece ?_, by
        show E.getLastD 0 ≤ 9
        omega⟩
      rw [hform, List.getLast?_append_of_ne_nil _ hrdE]
      exact renderDigits_getLast? E hE
    · have hform : renderFloat (.sci neg lead F eneg E)
          = ((if neg then ['-'] else []) ++ [Char.ofNat (48 + lead)])
            ++ '.' :: (renderDigits F
              ++ 'e' :: (if eneg then '-' else '+') :: renderDigits E) := by
        simp [renderFloat, hF, List.append_assoc]
      have hY : ∀ c ∈ renderDigits F
          ++ 'e' :: (if eneg then '-' else '+') :: renderDigits E,
          c ≠ '.' := by
        intro c hc
        rcases List.mem_append.mp hc with h1 | h2
        · obtain ⟨d, hd, rfl⟩ := List.mem_map.mp h1
          exact digitChar_ne_dot d (hFd d hd)
        · rcases List.mem_cons.mp h2 with rfl | h3
          · decide
          · rcases List.mem_cons.mp h3 with rfl | h4
            · cases eneg <;> decide
            · obtain ⟨d, hd, rfl⟩ := List.mem_map.mp h4
              exact digitChar_ne_dot d (hEd d hd)
      have hpiece : (splitOnDot
          (renderFloat (.sci neg lead F eneg E))).getLastD []
          = renderDigits F
            ++ 'e' :: (if eneg then '-' else '+') :: renderDigits E := by
        rw [hform]
        exact splitOnDot_getLastD_append _ _ hY
      refine ⟨last_digit_of_piece _ _ _ hv hpiece ?_, by
        show E.getLastD 0 ≤ 9
        omega⟩
      rw [List.getLast?_append_of_ne_nil _ (by simp :
        ('e' :: (if eneg then '-' else '+') :: renderDigits E) ≠ []),
        show ('e' :: (if eneg then '-' else '+') :: renderDigits E)
          = ['e', if eneg then '-' else '+'] ++ renderDigits E from rfl,
        List.getLast?_append_of_ne_nil _ hrdE]
      exact renderDigits_getLast? E hE

/-- The synthetic buffer of section 8 of the spec: digits 0..5 ten times
each, 60 samples. -/
def demoTicks : List Nat :=
  [0, 1, 2, 3, 4, 5, 0, 1, 2, 3, 4, 5, 0, 1, 2, 3, 4, 5,
   0, 1, 2, 3, 4, 5, 0, 1, 2, 3, 4, 5, 0, 1, 2, 3, 4, 5,
   0, 1, 2, 3, 4, 5, 0, 1, 2, 3, 4, 5, 0, 1, 2, 3, 4, 5,
   0, 1, 2, 3, 4, 5]

/-- The statistics digit_stats computes on demoTicks. -/
def demoStats : DigitStats :=
  { freq := [0, 1, 2, 3, 4, 5, 6, 7, 8, 9]
    under6 := 100
    under7 := 100
    even := 50
    odd := 50 }

set_option maxRecDepth 100000 in
lemma demo_digit_stats : digit_stats demoTicks = some demoStats := by
  with_unfolding_all decide

theorem c2_witness :
    (demoStats.under6 = (demoTicks.countP (fun d => decide (d < 6)) : ℚ)
        / (demoTicks.length : ℚ) * 100
      ∧ demoStats.under7 = (demoTicks.countP (fun d => decide (d < 7)) : ℚ)
        / (demoTicks.length : ℚ) * 100)
      ∧ (demoStats.even = (demoTicks.countP (fun d => decide (d % 2 = 0)) : ℚ)
          / (demoTicks.length : ℚ) * 100
        ∧ demoStats.odd = (demoTicks.countP (fun d => decide (d % 2 = 1)) : ℚ)
          / (demoTicks.length : ℚ) * 100) :=
  ⟨((c2_digit_stats_percentages demoTicks).2 demoStats demo_digit_stats).1,
   ((c2_digit_stats_percentages demoTicks).2 demoStats demo_digit_stats).2
     (by decide)⟩

theorem c3_witness :
    0 ≤ (9999 / 100 : ℚ) ∧ (9999 / 100 : ℚ) ≤ 100 :=
  (c3_rsi_spec_and_bounds
    [0, 1, 2, 3, 4, 5, 6, 7, 8, 9, 10, 11, 12, 13, 14]).2.2
    (9999 / 100) demo_rsi

theorem c5_witness :
    demoStats.freq.headI < 10
      ∧ (∀ d, d < 10 →
          demoTicks.count d ≤ demoTicks.count demoStats.freq.headI)
      ∧ ∀ d, d < 10 →
          demoTicks.count d = demoTicks.count demoStats.freq.headI →
            demoStats.freq.headI ≤ d :=
  c5_freq_head_least_max demoTicks demoStats demo_digit_stats

theorem c6_witness :
    (∀ i : Nat, BOT_SEQUENCE.getD i "" = "V1" →
        (loopIter initBuffers i).2 = runEval initBuffers signal_v1)
      ∧ (runEval initBuffers signal_v1 = none
          ↔ ∀ m ∈ MARKETS, signal_v1 initBuffers m.1 m.2 = none)
      ∧ ∀ sig, runEval initBuffers signal_v1 = some sig →
          ∃ i : Fin MARKETS.length,
            signal_v1 initBuffers (MARKETS.get i).1 (MARKETS.get i).2
                = some sig
              ∧ ∀ j : Fin MARKETS.length, j.val < i.val →
                signal_v1 initBuffers (MARKETS.get j).1 (MARKETS.get j).2
                  = none :=
  c6_single_evaluator_first_market initBuffers "V1" signal_v1 rfl

theorem c7_witness :
    demoStats.under6 ≤ demoStats.under7
      ∧ demoStats.even + demoStats.odd = 100 :=
  c7_stats_consistency demoTicks demoStats demo_digit_stats (by decide)

theorem c9_witness :
    handleMsg (fun _ => 0) (Json.obj [("ping", Json.num 1)]) initBuffers
        = initBuffers
      ∧ processMsg (fun _ => 0) (Json.obj [("ping", Json.num 1)]) initBuffers
        = some initBuffers :=
  ⟨(c9_nontick_leaves_buffers (fun _ => 0) (Json.obj [("ping", Json.num 1)])
      initBuffers).1 rfl,
   (c9_nontick_leaves_buffers (fun _ => 0) (Json.obj [("ping", Json.num 1)])
      initBuffers).2 [("ping", Json.num 1)] rfl rfl⟩

theorem c10_witness :
    (last_digit (renderFloat (PyFloatRepr.decimal false [1, 0, 0] [0]))
        = some (lastDigitVal (PyFloatRepr.decimal false [1, 0, 0] [0]))
      ∧ lastDigitVal (PyFloatRepr.decimal false [1, 0, 0] [0]) ≤ 9)
      ∧ (last_digit (renderFloat (PyFloatRepr.sci false 1 [] true [0, 5]))
          = some (lastDigitVal (PyFloatRepr.sci false 1 [] true [0, 5]))
        ∧ lastDigitVal (PyFloatRepr.sci false 1 [] true [0, 5]) ≤ 9) :=
  ⟨c10_last_digit_total _ ⟨by decide, by decide, by decide, by decide⟩,
   c10_last_digit_total _ ⟨by decide, by decide, by decide, by decide⟩⟩
